import Mathlib

set_option linter.unreachableTactic false
set_option linter.unusedTactic false

/-!
Verification development for the two core subsystems of the repository:

* the expression formatter (`compiler/fmt/src/expr.rs`): comment-preserving
  pretty-printing of a parsed AST, driven by the `is_multiline` predicate;
* the module loader (`src/load/mod.rs`): the per-file worker
  (`load_filename`), the dependency coordinator loop (`load`), and the
  solver driver (`solve_loaded`).

The Rust code is shallowly embedded: the mutable output buffer (`String`)
becomes a returned `List Char` (each `buf.push`/`push_str` becomes an
append), machine integers become `Nat`, channels become explicit message
queues, and panics become `Except` errors.  Definitions follow the source
line by line; parts of the repository that are outside the two source
files (the `spaces.rs` helpers, `fmt_def`, `fmt_pattern`, the AST
declaration itself) are modelled from the specification and are marked as
such in their doc comments.
-/

/-- Trivia item (`roc_parse::ast::CommentOrNewline`, modelled from the spec
§3/§4.A): a bare newline, a line comment (text without the `#`), or a doc
comment. -/
inductive CommentOrNewline : Type
  | newline
  | lineComment (text : List Char)
  | docComment (text : List Char)
deriving DecidableEq, Repr

/-- Translation of `CommentOrNewline::is_newline`, used by the empty
list/record guards in `fmt_list`/`fmt_record`. -/
def CommentOrNewline.is_newline : CommentOrNewline → Bool
  | .newline => true
  | _ => false

/-- Numeric base of a `NonBase10Int` (`roc_parse::ast::Base`). -/
inductive IntBase : Type
  | hex
  | octal
  | binary
  | decimal
deriving DecidableEq, Repr

/-- Unary operators (`roc_module::operator::UnaryOp`). -/
inductive UnaryOpTag : Type
  | negate
  | not
deriving DecidableEq, Repr

/-- Binary operators (`roc_module::operator::BinOp`). -/
inductive BinOpTag : Type
  | caret | star | slash | doubleSlash | percent | doublePercent
  | plus | minus | equals | notEquals | lessThan | greaterThan
  | lessThanOrEq | greaterThanOrEq | and | or | pizza
deriving DecidableEq, Repr

/-- Modelled from the spec (§3, §4.B, §4.C.2, §4.C.4): patterns are an
external variant hierarchy; the formatter depends only on their
`is_multiline` predicate, their render operation (`fmt_pattern` and
`Formattable::format`, both rendering at a given indent), and their source
region (start/end line, used by `fmt_when` to decide pattern-alternative
layout).  A pattern is abstracted by exactly those capabilities. -/
structure Pat : Type where
  is_multiline : Bool
  render : Nat → List Char
  startLine : Nat
  endLine : Nat

/-- Modelled from the spec (§4.C, Defs): `fmt_def` (in `fmt/src/def.rs`,
not under the covered sources) renders one definition at the given indent;
a definition is abstracted by its rendering function. -/
def Def : Type := Nat → List Char

mutual

/-- Expression AST (`roc_parse::ast::Expr`), modelled from the spec §3 and
the variants matched by `is_multiline`/`format_with_options` in
`fmt/src/expr.rs`.  `Located` wrappers are dropped for expressions (the
formatter only reads `.value` of located expressions); pattern regions are
kept inside `Pat`.  `Apply`'s third field (`CalledVia`) and the three
fields of `PrecedenceConflict` other than the wrapped subexpression are
elided: the formatter ignores them. -/
inductive Expr : Type
  | float (s : List Char)
  | num (s : List Char)
  | nonBase10Int (base : IntBase) (s : List Char) (isNegative : Bool)
  | str (lit : StrLiteral)
  | access (structure_ : Expr) (field : List Char)
  | accessorFunction (field : List Char)
  | var (moduleName : List Char) (ident : List Char)
  | globalTag (s : List Char)
  | privateTag (s : List Char)
  | list (items : List Expr) (finalComments : List CommentOrNewline)
  | record (update : Option Expr) (fields : List AssignedField)
      (finalComments : List CommentOrNewline)
  | apply (fn : Expr) (args : List Expr)
  | closure (patterns : List Pat) (body : Expr)
  | defs (definitions : List Def) (ret : Expr)
  | If (cond : Expr) (thenBranch : Expr) (elseBranch : Expr)
  | when (cond : Expr) (branches : List WhenBranch)
  | binOp (left : Expr) (op : BinOpTag) (right : Expr)
  | unaryOp (sub : Expr) (op : UnaryOpTag)
  | parensAround (sub : Expr)
  | nested (sub : Expr)
  | spaceBefore (sub : Expr) (spaces : List CommentOrNewline)
  | spaceAfter (sub : Expr) (spaces : List CommentOrNewline)
  | malformedIdent (s : List Char)
  | malformedClosure
  | precedenceConflict (sub : Expr)

/-- Record field AST (`roc_parse::ast::AssignedField`), spec §3: required
value, optional value, bare label, trivia wrappers, or malformed raw
text. -/
inductive AssignedField : Type
  | requiredValue (name : List Char) (spaces : List CommentOrNewline) (value : Expr)
  | optionalValue (name : List Char) (spaces : List CommentOrNewline) (value : Expr)
  | labelOnly (name : List Char)
  | spaceBefore (sub : AssignedField) (spaces : List CommentOrNewline)
  | spaceAfter (sub : AssignedField) (spaces : List CommentOrNewline)
  | malformed (raw : List Char)

/-- String literal AST (`roc_parse::ast::StrLiteral`): a plain single
line, an interpolated single line, or a block string (list of
segment-lines). -/
inductive StrLiteral : Type
  | plainLine (s : List Char)
  | line (segments : List StrSegment)
  | block (lines : List (List StrSegment))

/-- String segment AST (`roc_parse::ast::StrSegment`).  `EscapedChar`
carries the already-parsed character (the source calls
`to_parsed_char`). -/
inductive StrSegment : Type
  | plaintext (s : List Char)
  | unicode (s : List Char)
  | escapedChar (c : Char)
  | interpolated (sub : Expr)

/-- Pattern-match branch (`roc_parse::ast::WhenBranch`): non-empty pattern
alternatives, a body expression, and an optional guard. -/
inductive WhenBranch : Type
  | mk (patterns : List Pat) (value : Expr) (guard : Option Expr)

end

mutual

/-- Translation of `<Expr as Formattable>::is_multiline`
(`fmt/src/expr.rs` lines 12–90), arm by arm. -/
def Expr.is_multiline : Expr → Bool
  | .spaceBefore _ _ => true
  | .spaceAfter _ _ => true
  | .float _ => false
  | .num _ => false
  | .nonBase10Int _ _ _ => false
  | .access _ _ => false
  | .accessorFunction _ => false
  | .var _ _ => false
  | .malformedIdent _ => false
  | .malformedClosure => false
  | .globalTag _ => false
  | .privateTag _ => false
  | .defs _ _ => true
  | .when _ _ => true
  | .list items _ => anyExprMultiline items
  | .str (.plainLine _) => false
  | .str (.line _) => false
  | .str (.block lines) => lines.length > 1
  | .apply fn args => fn.is_multiline || anyExprMultiline args
  | .If c t e => c.is_multiline || t.is_multiline || e.is_multiline
  | .binOp l _ r =>
      (match r with
       | .binOp _ _ nr => nr.is_multiline
       | _ => false) || l.is_multiline || r.is_multiline
  | .unaryOp sub _ => sub.is_multiline
  | .precedenceConflict sub => sub.is_multiline
  | .parensAround sub => sub.is_multiline
  | .nested sub => sub.is_multiline
  | .closure pats body => body.is_multiline || pats.any (·.is_multiline)
  | .record _ fields _ => anyFieldMultiline fields

/-- Iterator `items.iter().any(|e| e.is_multiline())`, used by the `List`
and `Apply` arms. -/
def anyExprMultiline : List Expr → Bool
  | [] => false
  | e :: rest => e.is_multiline || anyExprMultiline rest

/-- Modelled from the spec (§3, §4.C.1): `is_multiline` for record fields
(the `Formattable` impl for `AssignedField` lives in `fmt/src/annotation`,
outside the covered sources).  Trivia wrappers are always multiline;
valued fields are multiline when the trivia before the separator is
non-empty or the value is multiline; bare labels and malformed raw text
are single-line. -/
def AssignedField.is_multiline : AssignedField → Bool
  | .requiredValue _ spaces v => !spaces.isEmpty || v.is_multiline
  | .optionalValue _ spaces v => !spaces.isEmpty || v.is_multiline
  | .labelOnly _ => false
  | .spaceBefore _ _ => true
  | .spaceAfter _ _ => true
  | .malformed _ => false

/-- Iterator `fields.iter().any(|f| f.is_multiline())`, used by the
`Record` arm. -/
def anyFieldMultiline : List AssignedField → Bool
  | [] => false
  | f :: rest => f.is_multiline || anyFieldMultiline rest

end

example : Expr.is_multiline (.record none [] [.lineComment ['h', 'i']]) = false := by decide

example : Expr.is_multiline (.If (.var [] ['x'])
    (.str (.block [[.plaintext ['a']], [.plaintext ['b']]])) (.var [] ['z'])) = true := by decide

/-- Parens mode of the formatter (`fmt/src/annotation.rs::Parens`, spec
§4.C). -/
inductive Parens : Type
  | notNeeded
  | inApply
deriving DecidableEq, Repr

/-- Newlines mode of the formatter (`fmt/src/annotation.rs::Newlines`,
spec §4.C). -/
inductive Newlines : Type
  | yes
  | no
deriving DecidableEq, Repr

/-- Newline placement for `fmt_comments_only`
(`fmt/src/spaces.rs::NewlineAt`; only `Top` and `Bottom` are used by
`expr.rs`). -/
inductive NewlineAt : Type
  | top
  | bottom
deriving DecidableEq, Repr

/-- Indentation step (`fmt/src/spaces.rs::INDENT`, spec §4.C: one step is
four spaces). -/
def INDENT : Nat := 4

/-- Modelled from the spec §4.C: `add_spaces(buf, n)` pushes `n` spaces. -/
def add_spaces (indent : Nat) : List Char := List.replicate indent ' '

/-- Modelled from the spec §4.C: `newline(buf, indent)` pushes a newline
followed by `indent` spaces ("emit a newline at the current indent"). -/
def newlineBuf (indent : Nat) : List Char := '\n' :: add_spaces indent

/-- Modelled from the spec §4.A (`fmt/src/spaces.rs::fmt_spaces` is not
under the covered sources): renders both newlines and comments; a newline
item contributes vertical whitespace, a line comment appears on its own
line with a newline forced after it at the given indent, and a doc comment
behaves like a line comment with a `##` marker. -/
def fmt_spaces : List CommentOrNewline → Nat → List Char
  | [], _ => []
  | .newline :: rest, indent => '\n' :: fmt_spaces rest indent
  | .lineComment t :: rest, indent =>
      '#' :: (t ++ newlineBuf indent) ++ fmt_spaces rest indent
  | .docComment t :: rest, indent =>
      '#' :: '#' :: (t ++ newlineBuf indent) ++ fmt_spaces rest indent

/-- Modelled from the spec §4.A/§4.C (`fmt/src/spaces.rs::fmt_comments_only`
is not under the covered sources): renders only the comments, skipping
bare newlines; `NewlineAt.top` places a newline (at the given indent)
before each comment, `NewlineAt.bottom` after it. -/
def fmt_comments_only : List CommentOrNewline → NewlineAt → Nat → List Char
  | [], _, _ => []
  | .newline :: rest, pos, indent => fmt_comments_only rest pos indent
  | .lineComment t :: rest, pos, indent =>
      (match pos with
       | .top => newlineBuf indent ++ '#' :: t
       | .bottom => '#' :: (t ++ newlineBuf indent)) ++ fmt_comments_only rest pos indent
  | .docComment t :: rest, pos, indent =>
      (match pos with
       | .top => newlineBuf indent ++ '#' :: '#' :: t
       | .bottom => '#' :: '#' :: (t ++ newlineBuf indent)) ++ fmt_comments_only rest pos indent

/-- Operator token emitted by `fmt_bin_op` (`fmt/src/expr.rs` lines
361–379). -/
def binOpChars : BinOpTag → List Char
  | .caret => ['^']
  | .star => ['*']
  | .slash => ['/']
  | .doubleSlash => ['/', '/']
  | .percent => ['%']
  | .doublePercent => ['%', '%']
  | .plus => ['+']
  | .minus => ['-']
  | .equals => ['=', '=']
  | .notEquals => ['!', '=']
  | .lessThan => ['<']
  | .greaterThan => ['>']
  | .lessThanOrEq => ['<', '=']
  | .greaterThanOrEq => ['>', '=']
  | .and => ['&', '&']
  | .or => ['|', '|']
  | .pizza => ['|', '>']

/-- Base marker emitted by the `NonBase10Int` arm (`fmt/src/expr.rs` lines
222–227): decimal gets no marker. -/
def baseMark : IntBase → List Char
  | .hex => ['0', 'x']
  | .octal => ['0', 'o']
  | .binary => ['0', 'b']
  | .decimal => []

/-- Translation of the scanning loop inside `empty_line_before_expr`
(`fmt/src/expr.rs` lines 491–506): walks the trivia with a
seen-one-newline flag and returns true as soon as a second newline is
found; comments are skipped. -/
def hasTwoNewlines : List CommentOrNewline → Bool → Bool
  | [], _ => false
  | .newline :: rest, seenOne => if seenOne then true else hasTwoNewlines rest true
  | .lineComment _ :: rest, seenOne => hasTwoNewlines rest seenOne
  | .docComment _ :: rest, seenOne => hasTwoNewlines rest seenOne

/-- Translation of `empty_line_before_expr` (`fmt/src/expr.rs` lines
486–513): true iff the expression, possibly under `Nested` wrappers,
starts with a `SpaceBefore` whose trivia contains at least two
newlines. -/
def emptyLineBeforeExpr : Expr → Bool
  | .spaceBefore _ spaces => hasTwoNewlines spaces false
  | .nested sub => emptyLineBeforeExpr sub
  | _ => false

/-- Rendering of the definition list of a `Defs` node (`fmt/src/expr.rs`
lines 246–248): each definition is rendered by `fmt_def` at the current
indent. -/
def fmtDefsList : List Def → Nat → List Char
  | [], _ => []
  | d :: rest, indent => d indent ++ fmtDefsList rest indent

/-- Pattern loop of `fmt_closure` (`fmt/src/expr.rs` lines 755–768):
patterns separated by `,` + newline when the arguments are multiline, by
`", "` otherwise. -/
def joinClosurePats : List Pat → Nat → Bool → List Char
  | [], _, _ => []
  | [p], indent, _ => p.render indent
  | p :: rest, indent, argsMultiline =>
      p.render indent ++
        (if argsMultiline then ',' :: newlineBuf indent else [',', ' ']) ++
        joinClosurePats rest indent argsMultiline

/-- Alternative-pattern loop of a `when` branch (`fmt/src/expr.rs` lines
584–593). -/
def joinRestPats : List Pat → Bool → Nat → List Char
  | [], _, _ => []
  | p :: rest, isMultiline, indent =>
      (if isMultiline then '\n' :: add_spaces indent ++ ['|', ' '] else [' ', '|', ' ']) ++
        p.render indent ++ joinRestPats rest isMultiline indent

theorem expr_sizeOf_pos (e : Expr) : 0 < sizeOf e := by
  cases e <;> simp_arith

theorem list_sizeOf_pos {α : Type} [SizeOf α] (l : List α) : 0 < sizeOf l := by
  cases l <;> simp_arith

theorem binOpTag_sizeOf_pos (op : BinOpTag) : 0 < sizeOf op := by
  cases op <;> simp_arith

set_option maxHeartbeats 1000000 in
mutual

/-- Translation of `<Expr as Formattable>::format_with_options`
(`fmt/src/expr.rs` lines 92–307), arm by arm in source order.  The
mutable output buffer becomes the returned `List Char`; every
`buf.push`/`buf.push_str` becomes an append.  Calls to the plain
`format(buf, indent)` method are inlined as
`format_with_options buf Parens::NotNeeded Newlines::Yes indent`
(the default, modelled from the spec §4.C: `ParensAround` and the
branch-rendering rules all restate it as `parens=NotNeeded,
newlines=Yes`). -/
def Expr.format_with_options : Expr → Parens → Newlines → Nat → List Char
  | .spaceBefore sub spaces, parens, newlines, indent =>
      (if newlines = Newlines.yes then fmt_spaces spaces indent
       else fmt_comments_only spaces .bottom indent) ++
        sub.format_with_options parens newlines indent
  | .spaceAfter sub spaces, parens, newlines, indent =>
      sub.format_with_options parens newlines indent ++
        (if newlines = Newlines.yes then fmt_spaces spaces indent
         else fmt_comments_only spaces .bottom indent)
  | .parensAround sub, _, _, indent =>
      '(' :: sub.format_with_options .notNeeded .yes indent ++ [')']
  | .str lit, _, _, indent =>
      '"' ::
        (match lit with
         | .plainLine s => s
         | .line segments => fmtSegments segments 0
         | .block lines =>
             '"' :: '"' ::
               ((if lines.length > 1 then
                   newlineBuf indent ++ fmtBlockLines lines indent
                 else
                   fmtBlockInline lines indent) ++ ['"', '"'])) ++ ['"']
  | .var moduleName ident, _, _, _ =>
      (if moduleName.isEmpty then [] else moduleName ++ ['.']) ++ ident
  | .apply fn args, parens, _, indent =>
      (if parens = Parens.inApply then ['('] else []) ++
        fn.format_with_options .inApply .yes indent ++
        (if anyExprMultiline args then fmtArgsMultiline args (indent + INDENT)
         else fmtArgsCompact args indent) ++
        (if parens = Parens.inApply then [')'] else [])
  | .num s, _, _, _ => s
  | .float s, _, _, _ => s
  | .globalTag s, _, _, _ => s
  | .privateTag s, _, _, _ => s
  | .nonBase10Int base s isNegative, _, _, _ =>
      (if isNegative then ['-'] else []) ++ baseMark base ++ s
  | .record update fields finalComments, _, _, indent =>
      fmt_record update fields finalComments indent
  | .closure patterns body, _, _, indent => fmt_closure patterns body indent
  | .defs definitions ret, _, _, indent =>
      fmtDefsList definitions indent ++
        (if emptyLineBeforeExpr ret then [] else ['\n']) ++
        ret.format_with_options .notNeeded .yes indent
  | .If cond thenBranch elseBranch, _, _, indent =>
      fmt_if cond thenBranch elseBranch indent
  | .when cond branches, _, _, indent => fmt_when cond branches indent
  | .list items finalComments, _, _, indent =>
      fmt_list items finalComments indent
  | .binOp left op right, parens, _, indent =>
      fmt_bin_op left op right false parens indent
  | .unaryOp sub op, parens, newlines, indent =>
      (match op with
       | .negate => ['-']
       | .not => ['!']) ++ sub.format_with_options parens newlines indent
  | .nested sub, parens, newlines, indent =>
      sub.format_with_options parens newlines indent
  | .accessorFunction field, _, _, _ => '.' :: field
  | .access structure_ field, parens, _, indent =>
      structure_.format_with_options parens .yes indent ++ '.' :: field
  | .malformedIdent _, _, _, _ => []
  | .malformedClosure, _, _, _ => []
  | .precedenceConflict _, _, _, _ => []
  termination_by e _ _ _ => sizeOf e
  decreasing_by
    all_goals simp_wf
    all_goals (try subst_vars)
    all_goals (try simp_arith)
    all_goals first
      | omega
      | (have hp1 := list_sizeOf_pos finalComments; omega)
      | (have hp1 := list_sizeOf_pos patterns; omega)
      | (have hp1 := binOpTag_sizeOf_pos op; omega)

/-- Translation of `format_str_segment` (`fmt/src/expr.rs` lines
310–338). -/
def formatStrSegment : StrSegment → Nat → List Char
  | .plaintext s, _ => s
  | .unicode s, _ => '\\' :: 'u' :: '(' :: (s ++ [')'])
  | .escapedChar c, _ => ['\\', c]
  | .interpolated sub, indent =>
      '\\' :: '(' :: (sub.format_with_options .notNeeded .no indent ++ [')'])
  termination_by seg _ => sizeOf seg
  decreasing_by
    all_goals simp_wf
    all_goals (try subst_vars)
    all_goals (try simp_arith)
    all_goals (try omega)

/-- Segment loop `for seg in segments.iter()` of the `Line`/`Block` string
arms. -/
def fmtSegments : List StrSegment → Nat → List Char
  | [], _ => []
  | seg :: rest, indent => formatStrSegment seg indent ++ fmtSegments rest indent
  termination_by segs _ => sizeOf segs
  decreasing_by
    all_goals simp_wf
    all_goals (try subst_vars)
    all_goals (try simp_arith)
    all_goals (try omega)

/-- Multi-line block-string loop (`fmt/src/expr.rs` lines 147–153): each
segment-line is rendered and followed by a newline at the indent. -/
def fmtBlockLines : List (List StrSegment) → Nat → List Char
  | [], _ => []
  | segs :: rest, indent =>
      fmtSegments segs indent ++ newlineBuf indent ++ fmtBlockLines rest indent
  termination_by lines _ => sizeOf lines
  decreasing_by
    all_goals simp_wf
    all_goals (try subst_vars)
    all_goals (try simp_arith)
    all_goals (try omega)

/-- Single-line block-string loop (`fmt/src/expr.rs` lines 160–167): runs
0 or 1 times, no newlines. -/
def fmtBlockInline : List (List StrSegment) → Nat → List Char
  | [], _ => []
  | segs :: rest, indent => fmtSegments segs indent ++ fmtBlockInline rest indent
  termination_by lines _ => sizeOf lines
  decreasing_by
    all_goals simp_wf
    all_goals (try subst_vars)
    all_goals (try simp_arith)
    all_goals (try omega)

/-- Multiline argument loop of `Apply` (`fmt/src/expr.rs` lines 192–198):
newline before each argument, rendered with `InApply`/`No` at the argument
indent. -/
def fmtArgsMultiline : List Expr → Nat → List Char
  | [], _ => []
  | arg :: rest, argIndent =>
      newlineBuf argIndent ++ arg.format_with_options .inApply .no argIndent ++
        fmtArgsMultiline rest argIndent
  termination_by args _ => sizeOf args
  decreasing_by
    all_goals simp_wf
    all_goals (try subst_vars)
    all_goals (try simp_arith)
    all_goals (try omega)

/-- Compact argument loop of `Apply` (`fmt/src/expr.rs` lines 199–204):
space before each argument, rendered with `InApply`/`Yes`. -/
def fmtArgsCompact : List Expr → Nat → List Char
  | [], _ => []
  | arg :: rest, indent =>
      ' ' :: arg.format_with_options .inApply .yes indent ++ fmtArgsCompact rest indent
  termination_by args _ => sizeOf args
  decreasing_by
    all_goals simp_wf
    all_goals (try subst_vars)
    all_goals (try simp_arith)
    all_goals (try omega)

/-- Translation of `fmt_bin_op` (`fmt/src/expr.rs` lines 340–400): left
side with `Newlines::No`, newline-or-space depending on chain
multilineness, operator token, space, then either a recursive chain step
(passing this chain's multilineness) or the right side with
`Newlines::Yes`. -/
def fmt_bin_op : Expr → BinOpTag → Expr → Bool → Parens → Nat → List Char
  | left, op, right, partOfMultiLineBinOps, applyNeedsParens, indent =>
      let isMultiline :=
        right.is_multiline || left.is_multiline || partOfMultiLineBinOps
      left.format_with_options applyNeedsParens .no indent ++
        (if isMultiline then newlineBuf (indent + INDENT) else [' ']) ++
        binOpChars op ++ [' '] ++
        (match right with
         | .binOp nestedLeft nestedOp nestedRight =>
             fmt_bin_op nestedLeft nestedOp nestedRight isMultiline
               applyNeedsParens indent
         | other => other.format_with_options applyNeedsParens .yes indent)
  termination_by l _ r _ _ _ => sizeOf l + sizeOf r + 1
  decreasing_by
    all_goals simp_wf
    all_goals (try subst_vars)
    all_goals (try simp_arith)
    all_goals first
      | omega
      | (have hp1 := expr_sizeOf_pos right; omega)

/-- Translation of `fmt_list` (`fmt/src/expr.rs` lines 402–484). -/
def fmt_list : List Expr → List CommentOrNewline → Nat → List Char
  | items, finalComments, indent =>
      if items.isEmpty && finalComments.all (·.is_newline) then
        ['[', ']']
      else
        '[' ::
          (if anyExprMultiline items then
             fmtListItemsML items (indent + INDENT) ++
               fmt_comments_only finalComments .top (indent + INDENT) ++
               newlineBuf indent ++ [']']
           else fmtListItemsCompact items indent ++ [' ', ']'])
  termination_by items _ _ => sizeOf items + 1
  decreasing_by
    all_goals simp_wf
    all_goals (try subst_vars)
    all_goals (try simp_arith)
    all_goals (try omega)

/-- Multiline item loop of `fmt_list` (`fmt/src/expr.rs` lines 415–467),
including the `SpaceBefore`/`SpaceAfter` comment-migration arms. -/
def fmtListItemsML : List Expr → Nat → List Char
  | [], _ => []
  | item :: rest, itemIndent =>
      (match item with
       | .spaceBefore below spacesAbove =>
           newlineBuf itemIndent ++
             fmt_comments_only spacesAbove .bottom itemIndent ++
             (match below with
              | .spaceAfter above spacesBelow =>
                  above.format_with_options .notNeeded .yes itemIndent ++ [','] ++
                    fmt_comments_only spacesBelow .top itemIndent
              | other => other.format_with_options .notNeeded .yes itemIndent ++ [','])
       | .spaceAfter sub spaces =>
           newlineBuf itemIndent ++
             sub.format_with_options .notNeeded .yes itemIndent ++ [','] ++
             fmt_comments_only spaces .top itemIndent
       | other =>
           newlineBuf itemIndent ++
             other.format_with_options .notNeeded .yes itemIndent ++ [',']) ++
        fmtListItemsML rest itemIndent
  termination_by items _ => sizeOf items
  decreasing_by
    all_goals simp_wf
    all_goals (try subst_vars)
    all_goals (try simp_arith)
    all_goals (try omega)

/-- Compact item loop of `fmt_list` (`fmt/src/expr.rs` lines 472–480):
space before each item, comma only when another item follows. -/
def fmtListItemsCompact : List Expr → Nat → List Char
  | [], _ => []
  | [item], indent => ' ' :: item.format_with_options .notNeeded .yes indent
  | item :: rest, indent =>
      ' ' :: item.format_with_options .notNeeded .yes indent ++
        ',' :: fmtListItemsCompact rest indent
  termination_by items _ => sizeOf items
  decreasing_by
    all_goals simp_wf
    all_goals (try subst_vars)
    all_goals (try simp_arith)
    all_goals (try omega)

/-- Translation of `fmt_record` (`fmt/src/expr.rs` lines 804–868).  Note
that this function recomputes its own multiline flag as "any field
multiline OR final comments non-empty" (line 829), unlike
`Expr.is_multiline`. -/
def fmt_record : Option Expr → List AssignedField → List CommentOrNewline → Nat → List Char
  | update, fields, finalComments, indent =>
      if fields.isEmpty && finalComments.all (·.is_newline) then
        ['\x7b', '\x7d']
      else
        '\x7b' ::
          ((match update with
            | none => []
            | some recordVar =>
                ' ' :: recordVar.format_with_options .notNeeded .yes indent ++
                  [' ', '&']) ++
            (if anyFieldMultiline fields || !finalComments.isEmpty then
               fmtFieldsML fields (indent + INDENT) ++
                 fmt_comments_only finalComments .top (indent + INDENT) ++
                 newlineBuf indent
             else ' ' :: fmtFieldsCompact fields indent ++ [' ']) ++
            ['\x7d'])
  termination_by u f _ _ => sizeOf u + sizeOf f + 1
  decreasing_by
    all_goals simp_wf
    all_goals (try subst_vars)
    all_goals (try simp_arith)
    all_goals (try omega)

/-- Multiline field loop of `fmt_record` (`fmt/src/expr.rs` lines
834–842): each field through `format_field_multiline` with an empty
separator prefix. -/
def fmtFieldsML : List AssignedField → Nat → List Char
  | [], _ => []
  | f :: rest, fieldIndent =>
      format_field_multiline f fieldIndent [] ++ fmtFieldsML rest fieldIndent
  termination_by fields _ => sizeOf fields
  decreasing_by
    all_goals simp_wf
    all_goals (try subst_vars)
    all_goals (try simp_arith)
    all_goals (try omega)

/-- Translation of `format_field_multiline` (`fmt/src/expr.rs` lines
870–941): value fields on their own line with a trailing comma;
`SpaceBefore` comments above the field, `SpaceAfter` comments moved below
the comma. -/
def format_field_multiline : AssignedField → Nat → List Char → List Char
  | .requiredValue name spaces value, indent, sep =>
      newlineBuf indent ++ name ++
        (if spaces.isEmpty then [] else fmt_spaces spaces indent) ++
        sep ++ ':' :: ' ' :: value.format_with_options .notNeeded .yes indent ++ [',']
  | .optionalValue name spaces value, indent, sep =>
      newlineBuf indent ++ name ++
        (if spaces.isEmpty then [] else fmt_spaces spaces indent) ++
        sep ++ '?' :: ' ' :: value.format_with_options .notNeeded .yes indent ++ [',']
  | .labelOnly name, indent, _ => newlineBuf indent ++ name ++ [',']
  | .spaceBefore sub spaces, indent, sep =>
      fmt_comments_only spaces .top indent ++ format_field_multiline sub indent sep
  | .spaceAfter sub spaces, indent, sep =>
      format_field_multiline sub indent sep ++ fmt_comments_only spaces .top indent
  | .malformed raw, _, _ => raw
  termination_by f _ _ => sizeOf f
  decreasing_by
    all_goals simp_wf
    all_goals (try subst_vars)
    all_goals (try simp_arith)
    all_goals (try omega)

/-- Modelled from the spec §4.C.1 (the compact `format_with_options` of
`AssignedField` lives in `fmt/src/annotation.rs`, outside the covered
sources): `name : value` (or `name ? value` for optional fields) rendered
with `Newlines::No`; bare labels are just the name; in `Newlines::No` mode
trivia renders comments only. -/
def fmtFieldCompact : AssignedField → Nat → List Char
  | .requiredValue name spaces value, indent =>
      name ++ fmt_comments_only spaces .bottom indent ++
        ':' :: ' ' :: value.format_with_options .notNeeded .no indent
  | .optionalValue name spaces value, indent =>
      name ++ fmt_comments_only spaces .bottom indent ++
        '?' :: ' ' :: value.format_with_options .notNeeded .no indent
  | .labelOnly name, _ => name
  | .spaceBefore sub spaces, indent =>
      fmt_comments_only spaces .bottom indent ++ fmtFieldCompact sub indent
  | .spaceAfter sub spaces, indent =>
      fmtFieldCompact sub indent ++ fmt_comments_only spaces .bottom indent
  | .malformed raw, _ => raw
  termination_by f _ => sizeOf f
  decreasing_by
    all_goals simp_wf
    all_goals (try subst_vars)
    all_goals (try simp_arith)
    all_goals (try omega)

/-- Compact field loop of `fmt_record` (`fmt/src/expr.rs` lines 851–858):
fields separated by `", "`. -/
def fmtFieldsCompact : List AssignedField → Nat → List Char
  | [], _ => []
  | [f], indent => fmtFieldCompact f indent
  | f :: rest, indent =>
      fmtFieldCompact f indent ++ ',' :: ' ' :: fmtFieldsCompact rest indent
  termination_by fields _ => sizeOf fields
  decreasing_by
    all_goals simp_wf
    all_goals (try subst_vars)
    all_goals (try simp_arith)
    all_goals (try omega)

/-- Translation of `fmt_closure` (`fmt/src/expr.rs` lines 734–802): the
backslash, the pattern list (at one extra step if any pattern is
multiline), newline-or-space, the arrow, then the body (no space after
the arrow when the body starts with `SpaceBefore`). -/
def fmt_closure : List Pat → Expr → Nat → List Char
  | patterns, body, indent =>
      let argsMultiline := patterns.any (·.is_multiline)
      let patIndent := if argsMultiline then indent + INDENT else indent
      let bodyIndent := if body.is_multiline then patIndent + INDENT else patIndent
      '\\' ::
        (joinClosurePats patterns patIndent argsMultiline ++
          (if argsMultiline then newlineBuf patIndent else [' ']) ++
          ['-', '>'] ++
          (match body with
           | .spaceBefore _ _ => []
           | _ => [' ']) ++
          body.format_with_options .notNeeded .yes bodyIndent)
  termination_by _ body _ => sizeOf body + 1
  decreasing_by
    all_goals simp_wf
    all_goals (try subst_vars)
    all_goals (try simp_arith)
    all_goals (try omega)

/-- Translation of `fmt_when` (`fmt/src/expr.rs` lines 515–628): the
`when` keyword, the condition (trivia-aware when multiline, spaces around
it when compact), `is` plus newline, then the branch loop. -/
def fmt_when : Expr → List WhenBranch → Nat → List Char
  | condition, branches, indent =>
      let conditionIndent := indent + INDENT
      'w' :: 'h' :: 'e' :: 'n' ::
        ((if condition.is_multiline then
            (match condition with
             | .spaceBefore below spacesAbove =>
                 fmt_comments_only spacesAbove .top conditionIndent ++
                   newlineBuf conditionIndent ++
                   (match below with
                    | .spaceAfter above spacesBelow =>
                        above.format_with_options .notNeeded .yes conditionIndent ++
                          fmt_comments_only spacesBelow .top conditionIndent ++
                          newlineBuf indent
                    | other => other.format_with_options .notNeeded .yes conditionIndent)
             | other =>
                 newlineBuf conditionIndent ++
                   other.format_with_options .notNeeded .yes conditionIndent ++
                   newlineBuf indent)
          else
            ' ' :: condition.format_with_options .notNeeded .yes indent ++ [' ']) ++
          ['i', 's', '\n'] ++
          fmtWhenBranches branches indent)
  termination_by c bs _ => sizeOf c + sizeOf bs
  decreasing_by
    all_goals simp_wf
    all_goals (try subst_vars)
    all_goals (try simp_arith)
    all_goals first
      | omega
      | (have hp1 := list_sizeOf_pos branches; omega)
      | (have hp1 := expr_sizeOf_pos condition; omega)

/-- Branch loop of `fmt_when` (`fmt/src/expr.rs` lines 567–627): one
blank line (two newlines) between branches. -/
def fmtWhenBranches : List WhenBranch → Nat → List Char
  | [], _ => []
  | [b], indent => fmtWhenBranch b indent
  | b :: rest, indent =>
      fmtWhenBranch b indent ++ '\n' :: '\n' :: fmtWhenBranches rest indent
  termination_by bs _ => sizeOf bs
  decreasing_by
    all_goals simp_wf
    all_goals (try subst_vars)
    all_goals (try simp_arith)
    all_goals (try omega)

/-- One `when` branch (`fmt/src/expr.rs` lines 569–621): indented first
pattern, alternative patterns, optional guard, ` ->` + newline, and the
body at two extra indent steps with `SpaceBefore` comments rendered
first.  The source unwraps `patterns.split_first()`: the pattern list is
non-empty by the parser invariant (spec §3); an empty list renders
nothing here where the source would panic. -/
def fmtWhenBranch : WhenBranch → Nat → List Char
  | .mk patterns value guard, indent =>
      add_spaces (indent + INDENT) ++
        (match patterns with
         | [] => []
         | firstPattern :: rest =>
             firstPattern.render (indent + INDENT) ++
               joinRestPats rest
                 (match rest.getLast? with
                  | none => false
                  | some lastPattern => firstPattern.startLine != lastPattern.endLine)
                 (indent + INDENT)) ++
        (match guard with
         | some guardExpr =>
             ' ' :: 'i' :: 'f' :: ' ' ::
               guardExpr.format_with_options .notNeeded .yes (indent + INDENT)
         | none => []) ++
        [' ', '-', '>', '\n'] ++
        add_spaces (indent + 2 * INDENT) ++
        (match value with
         | .spaceBefore nestedValue spaces =>
             fmt_comments_only spaces .bottom (indent + 2 * INDENT) ++
               nestedValue.format_with_options .notNeeded .yes (indent + 2 * INDENT)
         | other => other.format_with_options .notNeeded .yes (indent + 2 * INDENT))
  termination_by b _ => sizeOf b
  decreasing_by
    all_goals simp_wf
    all_goals (try subst_vars)
    all_goals (try simp_arith)
    all_goals (try omega)

/-- Translation of `fmt_if` (`fmt/src/expr.rs` lines 630–732), kept
faithful to the source: in the multiline case, when the then-branch is
not a `SpaceBefore`, the source renders `loc_condition` (not `loc_then`)
and emits no newline after `then` (line 716). -/
def fmt_if : Expr → Expr → Expr → Nat → List Char
  | condition, thenBranch, elseBranch, indent =>
      let isMultiline :=
        thenBranch.is_multiline || elseBranch.is_multiline || condition.is_multiline
      let returnIndent := if isMultiline then indent + INDENT else indent
      'i' :: 'f' ::
        ((if condition.is_multiline then
            (match condition with
             | .spaceBefore below spacesAbove =>
                 fmt_comments_only spacesAbove .top returnIndent ++
                   newlineBuf returnIndent ++
                   (match below with
                    | .spaceAfter above spacesBelow =>
                        above.format_with_options .notNeeded .yes returnIndent ++
                          fmt_comments_only spacesBelow .top returnIndent ++
                          newlineBuf indent
                    | other => other.format_with_options .notNeeded .yes returnIndent)
             | .spaceAfter above spacesBelow =>
                 newlineBuf returnIndent ++
                   above.format_with_options .notNeeded .yes returnIndent ++
                   fmt_comments_only spacesBelow .top returnIndent ++
                   newlineBuf indent
             | other =>
                 newlineBuf returnIndent ++
                   other.format_with_options .notNeeded .yes returnIndent ++
                   newlineBuf indent)
          else
            ' ' :: condition.format_with_options .notNeeded .yes indent ++ [' ']) ++
          ['t', 'h', 'e', 'n'] ++
          (if isMultiline then
             (match thenBranch with
              | .spaceBefore below spacesBelow =>
                  newlineBuf returnIndent ++
                    fmt_comments_only spacesBelow .bottom returnIndent ++
                    (match below with
                     | .spaceAfter above spacesAbove =>
                         above.format_with_options .notNeeded .yes returnIndent ++
                           fmt_comments_only spacesAbove .top returnIndent ++
                           newlineBuf indent
                     | other => other.format_with_options .notNeeded .yes returnIndent)
              | _ => condition.format_with_options .notNeeded .yes returnIndent)
           else
             ' ' :: thenBranch.format_with_options .notNeeded .yes returnIndent) ++
          (if isMultiline then
             'e' :: 'l' :: 's' :: 'e' :: newlineBuf returnIndent
           else [' ', 'e', 'l', 's', 'e', ' ']) ++
          elseBranch.format_with_options .notNeeded .yes returnIndent)
  termination_by c t e _ => sizeOf c + sizeOf t + sizeOf e
  decreasing_by
    all_goals simp_wf
    all_goals (try subst_vars)
    all_goals (try simp_arith)
    all_goals first
      | omega
      | (have hp1 := expr_sizeOf_pos thenBranch; have hp2 := expr_sizeOf_pos elseBranch; omega)
      | (have hp1 := expr_sizeOf_pos elseBranch; omega)
      | (have hp1 := expr_sizeOf_pos condition; omega)

end

/-- Default `Formattable::format(buf, indent)` method, modelled from the
spec §4.C: rendering with `parens=NotNeeded, newlines=Yes`. -/
def Expr.format (e : Expr) (indent : Nat) : List Char :=
  e.format_with_options .notNeeded .yes indent

/-- Specification-side statement of the let-form spacing rule, written
from the spec's words (§4.C Defs): the return expression, possibly under
`Nested` wrappers, begins with a `SpaceBefore` whose trivia contains two
or more newlines ("an empty line before").  Compared against the source's
`empty_line_before_expr` in the C7 theorem. -/
def specEmptyLineBefore : Expr → Bool
  | .spaceBefore _ spaces => decide (2 ≤ spaces.countP (·.is_newline))
  | .nested sub => specEmptyLineBefore sub
  | _ => false

/-!
Coordinator model (`load`, `src/load/mod.rs` lines 80–147).

The coordinator's loop state is `all_deps` (the set of module names ever
spawned, kept as an insertion-ordered duplicate-free list), the `pending`
counter (`usize` in the source, `Nat` here with the same
`pending + new - 1` update), the accumulated dependency list
(`loaded_deps`; the source pushes one `LoadedModule` per spawned worker,
modelled by the worker's module name), and the channel, modelled as a
FIFO queue.  A queue entry is the name of a spawned module whose
dependency-set message is still in flight; popping the entry delivers
that module's message, which per `load_filename` is the deduplicated set
of its imports.  `valid` says whether a module's worker reaches the
send (`load_filename` sends only after its header parses; on read or
parse failure it returns without sending, so an invalid worker never
enqueues a message).  The channel delivery order of the real system is
nondeterministic; the model fixes the canonical spawn-order (FIFO)
schedule. -/
structure LoadState (α : Type) where
  allDeps : List α
  pending : Nat
  loadedDeps : List α
  queue : List α
deriving DecidableEq, Repr

/-- Result of running the coordinator loop: `done` when the loop breaks
with `pending == 0`, `blocked` when `rx.recv()` would wait forever (no
message is in flight and none can ever arrive), `fuelOut` when the fuel
bound is exhausted. -/
inductive LoadOutcome (α : Type) where
  | done (s : LoadState α)
  | blocked (s : LoadState α)
  | fuelOut
deriving DecidableEq, Repr

/-- One iteration of the `while let Some(module_deps) = rx.recv()` body
(`src/load/mod.rs` lines 107–132): receive the dep set of module `m`
(`SendSet` modelled as `dedup` of its import list), subtract `all_deps`
(`relative_complement`), update `pending = pending + new - 1`, record the
new names in `all_deps` before spawning, push the loaded modules onto the
dependency list, and enqueue a future message for each newly spawned
module whose worker reaches its send. -/
def depsToLoad {α : Type} [DecidableEq α] (imports : α → List α)
    (s : LoadState α) (m : α) : List α :=
  ((imports m).dedup).filter (fun d => !decide (d ∈ s.allDeps))

/-- The state update of one coordinator iteration; see `depsToLoad`. -/
def loadStep {α : Type} [DecidableEq α] (imports : α → List α) (valid : α → Bool)
    (s : LoadState α) (m : α) (rest : List α) : LoadState α :=
  ⟨s.allDeps ++ depsToLoad imports s m,
   s.pending + (depsToLoad imports s m).length - 1,
   s.loadedDeps ++ depsToLoad imports s m,
   rest ++ (depsToLoad imports s m).filter valid⟩

/-- The coordinator receive loop (`src/load/mod.rs` lines 107–137), with
an explicit fuel bound: processes one in-flight message per iteration and
exits when `pending` hits 0 after a message. -/
def loadLoop {α : Type} [DecidableEq α] (imports : α → List α) (valid : α → Bool) :
    Nat → LoadState α → LoadOutcome α
  | 0, _ => .fuelOut
  | fuel + 1, s =>
      match s.queue with
      | [] => .blocked s
      | m :: rest =>
          let s2 := loadStep imports valid s m rest
          if s2.pending = 0 then .done s2 else loadLoop imports valid fuel s2

/-- Initial coordinator state (`src/load/mod.rs` lines 100–106): no
dependencies recorded, `pending = 1` for the root module, and the root
worker's message in flight iff the root's header parses (`valid`). -/
def initLoadState {α : Type} (valid : α → Bool) (root : α) : LoadState α :=
  ⟨[], 1, [], if valid root then [root] else []⟩

/-- The coordinator run: the receive loop from the initial state. -/
def loadRun {α : Type} [DecidableEq α] (imports : α → List α) (valid : α → Bool)
    (root : α) (fuel : Nat) : LoadOutcome α :=
  loadLoop imports valid fuel (initLoadState valid root)

/-- Transitive closure of the root's imports: the modules reachable from
the root through one or more import edges. -/
inductive Reaches {α : Type} (imports : α → List α) (root : α) : α → Prop
  | direct {b : α} : b ∈ imports root → Reaches imports root b
  | step {b c : α} : Reaches imports root b → c ∈ imports b → Reaches imports root c

/-- Diamond import graph of the spec's scenario 6: the root `0` imports
`1` (A) and `2` (B); both import `3` (C); `3` imports nothing. -/
def diaImports : Nat → List Nat
  | 0 => [1, 2]
  | 1 => [3]
  | 2 => [3]
  | _ => []

example :
    loadRun diaImports (fun _ => true) 0 5 =
      .done ⟨[1, 2, 3], 0, [1, 2, 3], []⟩ := by decide

/-!
Worker model (`load_filename`, `src/load/mod.rs` lines 170–292) and
its helpers for imports (`load_import`, `expose`, lines 320–365).
-/

/-- Source region carried by located parse entries (`roc_region`); the
loader threads it through `load_import`/`expose` into the scope. -/
structure SrcRegion : Type where
  startLine : Nat
  startCol : Nat
  endLine : Nat
  endCol : Nat
deriving DecidableEq, Repr

/-- Unqualified identifier inserted into the import scope
(`Ident::Unqualified`). -/
inductive Ident : Type
  | unqualified (s : List Char)
deriving DecidableEq, Repr

/-- Modelled from the spec §3 (`Symbol::from_module`, in `can/symbol.rs`,
outside the covered sources): a symbol is the fully qualified
`module.name` pair. -/
structure QualSymbol : Type where
  module : List Char
  name : List Char
deriving DecidableEq, Repr

/-- Exposes entry of an imports list (`roc_parse::ast::ExposesEntry`):
an identifier, possibly under trivia wrappers. -/
inductive ExposesEntry : Type
  | ident (s : List Char)
  | spaceBefore (sub : ExposesEntry) (spaces : List CommentOrNewline)
  | spaceAfter (sub : ExposesEntry) (spaces : List CommentOrNewline)
deriving DecidableEq, Repr

/-- Imports entry (`roc_parse::ast::ImportsEntry`): a module name with its
exposed identifiers, possibly under trivia wrappers. -/
inductive ImportsEntry : Type
  | module (moduleName : List Char) (exposes : List (SrcRegion × ExposesEntry))
  | spaceBefore (sub : ImportsEntry) (spaces : List CommentOrNewline)
  | spaceAfter (sub : ImportsEntry) (spaces : List CommentOrNewline)
deriving DecidableEq, Repr

/-- Import scope built by `load_filename` (`ImMap<Ident, (QualSymbol,
Region)>` modelled as an insert-ordered association list with overwrite
on insert). -/
def ScopeMap : Type := List (Ident × QualSymbol × SrcRegion)

/-- Overwriting insert of `ImMap::insert`. -/
def scopeInsert (scope : ScopeMap) (key : Ident) (value : QualSymbol × SrcRegion) : ScopeMap :=
  (key, value) :: scope.filter (fun p => !decide (p.1 = key))

/-- Translation of `expose` (`src/load/mod.rs` lines 346–365): resolve an
exposes entry to its scope key and qualified symbol, ignoring trivia
wrappers. -/
def expose (moduleName : List Char) : ExposesEntry → SrcRegion → (List Char) × (QualSymbol × SrcRegion)
  | .ident s, region => (s, (⟨moduleName, s⟩, region))
  | .spaceBefore sub _, region => expose moduleName sub region
  | .spaceAfter sub _, region => expose moduleName sub region

/-- Translation of `load_import` (`src/load/mod.rs` lines 320–344):
returns the declared module name and inserts each exposed identifier into
the scope; trivia wrappers are skipped. -/
def load_import (region : SrcRegion) (entry : ImportsEntry) (scope : ScopeMap) :
    (List Char) × ScopeMap :=
  match entry with
  | .module moduleName exposes =>
      (moduleName,
        exposes.foldl
          (fun sc re =>
            let kv := expose moduleName re.2 re.1
            scopeInsert sc (Ident.unqualified kv.1) kv.2)
          scope)
  | .spaceBefore sub _ => load_import region sub scope
  | .spaceAfter sub _ => load_import region sub scope

/-- Insertion into the worker's `deps: SendSet<Box<str>>`: set semantics,
insertion order kept. -/
def depsInsert (deps : List (List Char)) (name : List Char) : List (List Char) :=
  if name ∈ deps then deps else deps ++ [name]

/-- The `for loc_entry in header.imports` loop of `load_filename`
(`src/load/mod.rs` lines 201–208 and 245–252): fold the import entries
into the dep set and the scope-from-imports. -/
def processImports (imports : List (SrcRegion × ImportsEntry)) :
    (List (List Char)) × ScopeMap :=
  imports.foldl
    (fun acc entry =>
      let r := load_import entry.1 entry.2 acc.2
      (depsInsert acc.1 r.1, r.2))
    ([], [])

/-- Abstract source text of a module file. -/
def Src : Type := List Char

/-- I/O error kind surfaced by a failed `read_to_string`
(`std::io::ErrorKind`, abstracted to the cases the loader can meet). -/
inductive IOErrorKind : Type
  | notFound
  | permissionDenied
  | otherKind
deriving DecidableEq, Repr

/-- Parsed module header (`roc_parse::ast::Module`): named interface or
anonymous app. -/
inductive HeaderModule : Type
  | interface (name : List Char) (exposes : List (SrcRegion × ExposesEntry))
      (imports : List (SrcRegion × ImportsEntry))
  | app (imports : List (SrcRegion × ImportsEntry))
deriving DecidableEq, Repr

/-- Outcome of `module::module().parse(...)` on a source text. -/
inductive ParseHeaderResult : Type
  | ok (m : HeaderModule)
  | failParse
deriving DecidableEq, Repr

/-- Worker result, as far as the coordinator protocol is concerned
(`LoadedModule`, `src/load/mod.rs` lines 45–56).  The declarations,
exposed imports and constraint of a `Valid` module are produced by
`process_defs` through the external parser/canonicalizer/constraint
builder and are not needed for the message-protocol claims, so `valid`
carries only the declared name (`Some` for an interface header, `None`
for an app header). -/
inductive LoadedHeader : Type
  | valid (name : Option (List Char))
  | fileProblem (filename : List Char) (error : IOErrorKind)
  | parsingFailed (filename : List Char)
deriving DecidableEq, Repr

/-- Translation of `load_filename` (`src/load/mod.rs` lines 170–292) with
the file system and parser abstracted as oracles: `read` is the outcome
of `read_to_string`, `parse` the outcome of the header parser on the
source text.  The second component records the messages the worker sends
on the coordinator channel, in order: the interface and app arms send the
dep set exactly once (lines 210–216 and 254–260); the read-failure and
parse-failure arms return without sending (lines 282 and 287–291). -/
def load_filename (read : Except IOErrorKind Src) (parse : Src → ParseHeaderResult)
    (filename : List Char) : LoadedHeader × List (List (List Char)) :=
  match read with
  | .error err => (.fileProblem filename err, [])
  | .ok src =>
      match parse src with
      | .failParse => (.parsingFailed filename, [])
      | .ok (.interface declaredName _exposes imports) =>
          let r := processImports imports
          (.valid (some declaredName), [r.1])
      | .ok (.app imports) =>
          let r := processImports imports
          (.valid none, [r.1])

example :
    (load_filename (.error .notFound) (fun _ => .failParse) ['m']).2 = [] := by decide

example :
    (load_filename (.ok []) (fun _ => .ok (.interface ['M'] [] [])) ['m']).2 = [[]] := by decide

/-!
Solver driver model (`solve_loaded`, `src/load/mod.rs` lines 367–468).
Panics become `Except` errors; the external `solve::run` is recorded by
the list of constraints it is handed, in call order.  Constraints are an
abstract type parameter `γ`.
-/

/-- Canonicalized definition (`can::def::Def`): the solver driver only
reads its `pattern_vars` map (symbol to type variable). -/
structure CanDef : Type where
  patternVars : List (QualSymbol × Nat)
deriving DecidableEq, Repr

/-- Declaration (`can::def::Declaration`): single definition, recursive
group, or invalid cycle.  The two fields of `InvalidCycle` are not read
by `solve_loaded` (its arm panics) and are elided. -/
inductive Declaration : Type
  | declare (d : CanDef)
  | declareRec (ds : List CanDef)
  | invalidCycle
deriving DecidableEq, Repr

/-- Canonicalized module (`can::module::Module`) as consumed by
`solve_loaded`: optional declared name, declarations, exposed imports,
and the module constraint. -/
structure CanModule (γ : Type) : Type where
  name : Option (List Char)
  declarations : List Declaration
  exposedImports : List (QualSymbol × Nat)
  constraint : γ
deriving DecidableEq, Repr

/-- A loaded dependency handed to `solve_loaded` (`LoadedModule`,
`src/load/mod.rs` lines 45–56). -/
inductive LoadedDep (γ : Type) : Type
  | valid (m : CanModule γ)
  | fileProblem (filename : List Char) (error : IOErrorKind)
  | parsingFailed (filename : List Char)
deriving DecidableEq, Repr

/-- The panics `solve_loaded` can hit, in source order of their sites:
`InvalidCycle` in a declaration walk (lines 395 and 428), a `FileProblem`
or `ParsingFailed` dependency (lines 437–443), and
`valid_dep.name.unwrap()` on an anonymous valid dependency (line 432). -/
inductive SolvePanic : Type
  | invalidCycle
  | fileProblemDep
  | parsingFailedDep
  | nameUnwrap
deriving DecidableEq, Repr

/-- Overwriting insert into `vars_by_symbol` (`ImMap::insert`). -/
def varsInsert (m : List (QualSymbol × Nat)) (kv : QualSymbol × Nat) :
    List (QualSymbol × Nat) :=
  kv :: m.filter (fun p => !decide (p.1 = kv.1))

/-- Translation of `insert_all` (`collections`): fold the pairs into the
map. -/
def insert_all (m : List (QualSymbol × Nat)) (kvs : List (QualSymbol × Nat)) :
    List (QualSymbol × Nat) :=
  kvs.foldl varsInsert m

/-- Declaration walk of `solve_loaded` (`src/load/mod.rs` lines 385–397
for the primary module and 416–430 for each valid dependency): add every
definition's pattern variables to `vars_by_symbol`; an `InvalidCycle`
declaration panics. -/
def addDeclVars : List Declaration → List (QualSymbol × Nat) →
    Except SolvePanic (List (QualSymbol × Nat))
  | [], m => .ok m
  | .declare d :: rest, m => addDeclVars rest (insert_all m d.patternVars)
  | .declareRec ds :: rest, m =>
      addDeclVars rest (ds.foldl (fun acc d => insert_all acc d.patternVars) m)
  | .invalidCycle :: _, _ => .error .invalidCycle

/-- Dependency loop of `solve_loaded` (`src/load/mod.rs` lines 404–445):
each `Valid` dependency merges its exposed imports and pattern variables
into `vars_by_symbol` and appends `(name.unwrap(), constraint)` to the
dependency-constraint list; `FileProblem` and `ParsingFailed`
dependencies panic, and so does the `unwrap` of a missing name. -/
def processDeps {γ : Type} : List (LoadedDep γ) → List (QualSymbol × Nat) →
    List ((List Char) × γ) →
    Except SolvePanic ((List (QualSymbol × Nat)) × List ((List Char) × γ))
  | [], m, cs => .ok (m, cs)
  | .valid validDep :: rest, m, cs =>
      let m1 := validDep.exposedImports.foldl varsInsert m
      match addDeclVars validDep.declarations m1 with
      | .error e => .error e
      | .ok m2 =>
          match validDep.name with
          | none => .error .nameUnwrap
          | some moduleName => processDeps rest m2 (cs ++ [(moduleName, validDep.constraint)])
  | .fileProblem _ _ :: _, _, _ => .error .fileProblemDep
  | .parsingFailed _ :: _, _, _ => .error .parsingFailedDep

/-- Translation of `solve_loaded` (`src/load/mod.rs` lines 367–468):
seed `vars_by_symbol` from the primary module's exposed imports and
declarations, fold in every dependency, then call the external solver
once per dependency constraint in list order and once more on the
primary module's constraint.  The result is the list of constraints
passed to `solve::run`, in call order; a panic is an `Except.error`. -/
def solve_loaded {γ : Type} (module : CanModule γ) (loadedDeps : List (LoadedDep γ)) :
    Except SolvePanic (List γ) :=
  let v0 := module.exposedImports.foldl varsInsert []
  match addDeclVars module.declarations v0 with
  | .error e => .error e
  | .ok v1 =>
      match processDeps loadedDeps v1 [] with
      | .error e => .error e
      | .ok r => .ok (r.2.map (·.2) ++ [module.constraint])

example :
    solve_loaded (γ := Nat) ⟨some ['M'], [], [], 5⟩
      [.valid ⟨some ['A'], [], [], 7⟩] = .ok [7, 5] := rfl

example :
    solve_loaded (γ := Nat) ⟨some ['M'], [], [], 5⟩
      [.valid ⟨none, [], [], 7⟩] = .error .nameUnwrap := rfl

/-!
Claim theorems.
-/

set_option maxHeartbeats 2000000 in
/-- C3: the claim says that after emitting `then`, `fmt_if` renders the
then-branch (multiline: newline, then-branch expression, optional
trailing comments; compact: space and then-branch).  The code violates
this: in the multiline case with a then-branch that is not a
`SpaceBefore`, line 716 of `fmt/src/expr.rs` renders `loc_condition`
instead of `loc_then`, and emits no newline after `then`.  At the input
`if x then """a\nb""" else z` (multiline because of the block string) the
full rendering is `if x thenxelse\n    z`: after `then` the output
repeats the condition `x` with no newline, and the then-branch (which
contains `a` and `b`) is never rendered. -/
theorem fmt_if_renders_condition_after_then :
    Expr.format_with_options
        (.If (.var [] ['x'])
          (.str (.block [[.plaintext ['a']], [.plaintext ['b']]]))
          (.var [] ['z'])) .notNeeded .yes 0 =
      ['i', 'f', ' ', 'x', ' ', 't', 'h', 'e', 'n', 'x',
       'e', 'l', 's', 'e', '\n', ' ', ' ', ' ', ' ', 'z'] ∧
    'a' ∉ Expr.format_with_options
        (.If (.var [] ['x'])
          (.str (.block [[.plaintext ['a']], [.plaintext ['b']]]))
          (.var [] ['z'])) .notNeeded .yes 0 := by
  constructor <;>
    simp [Expr.format_with_options, fmt_if, Expr.is_multiline, newlineBuf, add_spaces,
      INDENT, List.replicate]

/-- C4: the claim says `is_multiline(n)` is true iff formatting `n`
produces a newline.  The code violates this equivalence: for a record
with single-line fields but a non-empty final-comment list,
`Expr::is_multiline` (which ignores `final_comments`) returns `false`,
while `fmt_record` recomputes its own multiline flag as "any field
multiline OR final comments non-empty" (line 829) and renders the
expanded multi-line layout.  At `{ # hi }` (no fields, one final line
comment) the predicate answers `false` yet the output contains a
newline. -/
theorem is_multiline_record_format_disagree :
    Expr.is_multiline (.record none [] [.lineComment ['h', 'i']]) = false ∧
    '\n' ∈ Expr.format_with_options (.record none [] [.lineComment ['h', 'i']])
      .notNeeded .yes 0 := by
  constructor
  · decide
  · simp [Expr.format_with_options, fmt_record, anyFieldMultiline, fmtFieldsML,
      fmt_comments_only, CommentOrNewline.is_newline, newlineBuf, add_spaces, INDENT,
      List.replicate]

/-- C5: the claim says every line/doc comment of the input AST appears
exactly once in the formatter's output.  The code violates this in
`fmt_list`: its multiline flag (line 412) ignores `final_comments`, so a
list whose items are all single-line but whose final comments contain a
comment takes the compact path (lines 472–480), which never renders
`final_comments`.  At `[ # hi ]` (no items, one final line comment) the
input carries one comment and the output is exactly `[ ]` — the comment
is dropped.  (The empty-list guard at line 408 checks
`final_comments.iter().all(is_newline)` precisely so that comments force
the non-`[]` path, showing the comments were meant to be kept.) -/
theorem fmt_list_compact_drops_final_comments :
    Expr.format_with_options (.list [] [.lineComment ['h', 'i']]) .notNeeded .yes 0 =
      ['[', ' ', ']'] ∧
    ([CommentOrNewline.lineComment ['h', 'i']].countP (fun c => !c.is_newline)) = 1 := by
  constructor
  · simp [Expr.format_with_options, fmt_list, fmtListItemsCompact, anyExprMultiline,
      CommentOrNewline.is_newline]
  · decide

theorem hasTwoNewlines_eq_countP (sp : List CommentOrNewline) (b : Bool) :
    hasTwoNewlines sp b = decide ((if b then 1 else 2) ≤ sp.countP (·.is_newline)) := by
  induction sp generalizing b with
  | nil => cases b <;> simp [hasTwoNewlines]
  | cons c rest ih =>
      cases c <;> cases b <;>
        simp [hasTwoNewlines, ih, CommentOrNewline.is_newline, List.countP_cons] <;>
        omega

theorem emptyLineBeforeExpr_eq_spec (e : Expr) :
    emptyLineBeforeExpr e = specEmptyLineBefore e := by
  induction e using emptyLineBeforeExpr.induct with
  | case1 sub spaces => simp [emptyLineBeforeExpr, specEmptyLineBefore, hasTwoNewlines_eq_countP]
  | case2 sub ih => simpa [emptyLineBeforeExpr, specEmptyLineBefore] using ih
  | case3 e h1 h2 =>
      cases e <;> simp_all [emptyLineBeforeExpr, specEmptyLineBefore]

/-- C7: when formatting a `Defs` node, between the rendered definitions
and the return expression the formatter emits nothing extra when the
return expression (possibly under `Nested` wrappers) begins with a
`SpaceBefore` whose trivia contains two or more newlines (so the
preserved trivia itself supplies the blank line), and exactly one forced
newline otherwise; the source's `empty_line_before_expr` agrees with the
spec's wording of that test, and the return expression is rendered with
`parens=NotNeeded, newlines=Yes` at the same indent. -/
theorem defs_return_spacing (definitions : List Def) (ret : Expr)
    (parens : Parens) (newlines : Newlines) (indent : Nat) :
    emptyLineBeforeExpr ret = specEmptyLineBefore ret ∧
    Expr.format_with_options (.defs definitions ret) parens newlines indent =
      fmtDefsList definitions indent ++
        (if specEmptyLineBefore ret then [] else ['\n']) ++
        Expr.format_with_options ret .notNeeded .yes indent := by
  refine ⟨emptyLineBeforeExpr_eq_spec ret, ?_⟩
  conv_lhs => simp only [Expr.format_with_options]
  rw [emptyLineBeforeExpr_eq_spec ret]

/-!
Coordinator invariants.
-/

theorem length_filter_add_length_filter_not {α : Type} (l : List α) (p : α → Bool) :
    (l.filter p).length + (l.filter (fun a => !p a)).length = l.length := by
  induction l with
  | nil => rfl
  | cons a rest ih =>
      by_cases h : p a = true <;> simp [List.filter, h, ih] <;> omega

theorem depsToLoad_nodup {α : Type} [DecidableEq α] (imports : α → List α)
    (s : LoadState α) (m : α) : (depsToLoad imports s m).Nodup :=
  (List.nodup_dedup _).filter _

theorem depsToLoad_not_mem {α : Type} [DecidableEq α] (imports : α → List α)
    (s : LoadState α) (m : α) : ∀ d ∈ depsToLoad imports s m, d ∉ s.allDeps := by
  intro d hd
  simp [depsToLoad, List.mem_filter] at hd
  exact hd.2

theorem depsToLoad_sub_imports {α : Type} [DecidableEq α] (imports : α → List α)
    (s : LoadState α) (m : α) : ∀ d ∈ depsToLoad imports s m, d ∈ imports m := by
  intro d hd
  simp [depsToLoad, List.mem_filter, List.mem_dedup] at hd
  exact hd.1

theorem imports_sub_step {α : Type} [DecidableEq α] (imports : α → List α)
    (s : LoadState α) (m : α) :
    ∀ d ∈ imports m, d ∈ s.allDeps ∨ d ∈ depsToLoad imports s m := by
  intro d hd
  by_cases h : d ∈ s.allDeps
  · exact Or.inl h
  · exact Or.inr (by simp [depsToLoad, List.mem_filter, List.mem_dedup, hd, h])

/-- Invariant of the coordinator loop, relating the pending counter, the
in-flight message queue, the recorded dependency set, and reachability
from the root. -/
structure CoordInv {α : Type} (imports : α → List α) (valid : α → Bool) (root : α)
    (s : LoadState α) : Prop where
  pending_eq : s.pending =
    s.queue.length + (s.allDeps.filter (fun d => !valid d)).length
  queue_valid : ∀ x ∈ s.queue, valid x = true
  queue_nodup : s.queue.Nodup
  queue_sub : (s.queue = [root] ∧ s.allDeps = []) ∨ (∀ x ∈ s.queue, x ∈ s.allDeps)
  all_nodup : s.allDeps.Nodup
  loaded_eq : s.loadedDeps = s.allDeps
  closure : ∀ m, (m = root ∨ m ∈ s.allDeps) → valid m = true → m ∉ s.queue →
      ∀ d ∈ imports m, d ∈ s.allDeps
  reach : ∀ d ∈ s.allDeps, Reaches imports root d

theorem coordInv_init {α : Type} (imports : α → List α) (valid : α → Bool) (root : α)
    (hroot : valid root = true) :
    CoordInv imports valid root (initLoadState valid root) := by
  refine ⟨?_, ?_, ?_, ?_, ?_, ?_, ?_, ?_⟩ <;> simp [initLoadState, hroot]

theorem coordInv_step {α : Type} [DecidableEq α] (imports : α → List α)
    (valid : α → Bool) (root : α) (s : LoadState α) (m : α) (rest : List α)
    (hq : s.queue = m :: rest) (inv : CoordInv imports valid root s) :
    CoordInv imports valid root (loadStep imports valid s m rest) := by
  have hnd := depsToLoad_nodup imports s m
  have hnm := depsToLoad_not_mem imports s m
  have hsi := depsToLoad_sub_imports imports s m
  have hio := imports_sub_step imports s m
  have hqv := inv.queue_valid
  have hqn := inv.queue_nodup
  have hrest_nodup : rest.Nodup := by
    have := hq ▸ hqn
    exact (List.nodup_cons.mp this).2
  have hm_not_rest : m ∉ rest := by
    have := hq ▸ hqn
    exact (List.nodup_cons.mp this).1
  have hm_queue : m ∈ s.queue := by rw [hq]; exact List.mem_cons_self m rest
  have hm_valid : valid m = true := hqv m hm_queue
  have hm_root_or_all : m = root ∨ m ∈ s.allDeps := by
    rcases inv.queue_sub with ⟨h1, _⟩ | h2
    · left
      have : m ∈ [root] := h1 ▸ hm_queue
      simpa using this
    · right; exact h2 m hm_queue
  have hrest_sub : ∀ x ∈ rest, x ∈ s.allDeps := by
    intro x hx
    rcases inv.queue_sub with ⟨h1, _⟩ | h2
    · exfalso
      have : (m :: rest) = [root] := hq ▸ h1
      have : rest = [] := by
        cases this
        rfl
      simp [this] at hx
    · exact h2 x (by rw [hq]; exact List.mem_cons_of_mem _ hx)
  constructor
  · -- pending_eq
    show s.pending + (depsToLoad imports s m).length - 1 =
      (rest ++ (depsToLoad imports s m).filter valid).length +
        ((s.allDeps ++ depsToLoad imports s m).filter (fun d => !valid d)).length
    have hp := inv.pending_eq
    rw [hq] at hp
    have hsplit := length_filter_add_length_filter_not (depsToLoad imports s m) valid
    simp [List.length_append, List.filter_append] at *
    omega
  · -- queue_valid
    intro x hx
    rcases List.mem_append.mp hx with h | h
    · exact hqv x (by rw [hq]; exact List.mem_cons_of_mem _ h)
    · exact (List.mem_filter.mp h).2
  · -- queue_nodup
    refine List.Nodup.append hrest_nodup (hnd.filter _) ?_
    intro x hx1 hx2
    have hxall := hrest_sub x hx1
    have : x ∈ depsToLoad imports s m := (List.mem_filter.mp hx2).1
    exact hnm x this hxall
  · -- queue_sub
    right
    intro x hx
    show x ∈ s.allDeps ++ depsToLoad imports s m
    rcases List.mem_append.mp hx with h | h
    · exact List.mem_append.mpr (Or.inl (hrest_sub x h))
    · exact List.mem_append.mpr (Or.inr (List.mem_filter.mp h).1)
  · -- all_nodup
    refine List.Nodup.append inv.all_nodup hnd ?_
    intro x hx1 hx2
    exact hnm x hx2 hx1
  · -- loaded_eq
    show s.loadedDeps ++ _ = s.allDeps ++ _
    rw [inv.loaded_eq]
  · -- closure
    intro m' hm' hv' hnq' d hd
    show d ∈ s.allDeps ++ depsToLoad imports s m
    by_cases hmm : m' = m
    · subst hmm
      rcases hio d hd with h | h
      · exact List.mem_append.mpr (Or.inl h)
      · exact List.mem_append.mpr (Or.inr h)
    · by_cases hnew : m' ∈ depsToLoad imports s m
      · exfalso
        apply hnq'
        show m' ∈ rest ++ (depsToLoad imports s m).filter valid
        exact List.mem_append.mpr (Or.inr (List.mem_filter.mpr ⟨hnew, hv'⟩))
      · have hold : m' = root ∨ m' ∈ s.allDeps := by
          rcases hm' with h | h
          · exact Or.inl h
          · rcases List.mem_append.mp h with h2 | h2
            · exact Or.inr h2
            · exact absurd h2 hnew
        have hm'_not_queue : m' ∉ s.queue := by
          rw [hq]
          intro hc
          rcases List.mem_cons.mp hc with h | h
          · exact hmm h
          · exact hnq' (List.mem_append.mpr (Or.inl h))
        have := inv.closure m' hold hv' hm'_not_queue d hd
        exact List.mem_append.mpr (Or.inl this)
  · -- reach
    intro d hd
    rcases List.mem_append.mp hd with h | h
    · exact inv.reach d h
    · rcases hm_root_or_all with hr | ha
      · exact hr ▸ Reaches.direct (hsi d h)
      · exact Reaches.step (inv.reach m ha) (hsi d h)

theorem loadLoop_inv_done {α : Type} [DecidableEq α] (imports : α → List α)
    (valid : α → Bool) (root : α) :
    ∀ (fuel : Nat) (s s' : LoadState α), CoordInv imports valid root s →
      loadLoop imports valid fuel s = .done s' →
      CoordInv imports valid root s' ∧ s'.pending = 0 := by
  intro fuel
  induction fuel with
  | zero => intro s s' _ h; simp [loadLoop] at h
  | succ fuel ih =>
      intro s s' inv h
      rw [loadLoop] at h
      match hq : s.queue with
      | [] => rw [hq] at h; simp at h
      | m :: rest =>
          rw [hq] at h
          simp only at h
          by_cases hp : (loadStep imports valid s m rest).pending = 0
          · rw [if_pos hp] at h
            cases h
            exact ⟨coordInv_step imports valid root s m rest hq inv, hp⟩
          · rw [if_neg hp] at h
            exact ih _ _ (coordInv_step imports valid root s m rest hq inv) h

theorem root_invalid_never_done {α : Type} [DecidableEq α] (imports : α → List α)
    (valid : α → Bool) (root : α) (hroot : valid root = false) :
    ∀ (fuel : Nat) (s : LoadState α), loadRun imports valid root fuel ≠ .done s := by
  intro fuel s h
  cases fuel with
  | zero => simp [loadRun, loadLoop] at h
  | succ fuel => simp [loadRun, loadLoop, initLoadState, hroot] at h

theorem done_queue_empty_all_valid {α : Type} (imports : α → List α)
    (valid : α → Bool) (root : α) (s : LoadState α)
    (inv : CoordInv imports valid root s) (hp : s.pending = 0) :
    s.queue = [] ∧ ∀ d ∈ s.allDeps, valid d = true := by
  have h := inv.pending_eq
  rw [hp] at h
  have hq : s.queue.length = 0 := by omega
  have hf : (s.allDeps.filter (fun d => !valid d)).length = 0 := by omega
  refine ⟨List.eq_nil_of_length_eq_zero hq, ?_⟩
  intro d hd
  by_contra hc
  have : d ∈ s.allDeps.filter (fun d => !valid d) := by
    refine List.mem_filter.mpr ⟨hd, ?_⟩
    simp [Bool.not_eq_true] at hc ⊢
    exact hc
  rw [List.length_eq_zero.mp hf] at this
  simp at this

theorem reaches_mem_allDeps {α : Type} (imports : α → List α)
    (valid : α → Bool) (root : α) (s : LoadState α)
    (inv : CoordInv imports valid root s) (hp : s.pending = 0)
    (hroot : valid root = true) :
    ∀ f, Reaches imports root f → f ∈ s.allDeps := by
  obtain ⟨hqe, hav⟩ := done_queue_empty_all_valid imports valid root s inv hp
  intro f hf
  induction hf with
  | direct hb =>
      exact inv.closure root (Or.inl rfl) hroot (by simp [hqe]) _ hb
  | step hr hc ih =>
      rename_i b c
      exact inv.closure b (Or.inr ih) (hav b ih) (by simp [hqe]) _ hc

theorem loadLoop_reaches_done {α : Type} [DecidableEq α] (imports : α → List α)
    (root : α) (uni : List α) (huni : uni.Nodup)
    (hclosed : ∀ a ∈ uni, ∀ b ∈ imports a, b ∈ uni) :
    ∀ (fuel : Nat) (s : LoadState α),
      CoordInv imports (fun _ => true) root s →
      (∀ x ∈ s.allDeps, x ∈ uni) → (∀ x ∈ s.queue, x ∈ uni) →
      s.pending ≠ 0 →
      s.queue.length + (uni.length - s.allDeps.length) ≤ fuel →
      ∃ s', loadLoop imports (fun _ => true) fuel s = .done s' ∧
        CoordInv imports (fun _ => true) root s' ∧ s'.pending = 0 := by
  intro fuel
  induction fuel with
  | zero =>
      intro s inv hall hq hp hb
      exfalso
      have hpe := inv.pending_eq
      simp at hpe
      omega
  | succ fuel ih =>
      intro s inv hall hq hp hb
      have hpe := inv.pending_eq
      simp at hpe
      match hqe : s.queue with
      | [] =>
          exfalso
          rw [hqe] at hpe
          simp at hpe
          omega
      | m :: rest =>
          have hm_uni : m ∈ uni := hq m (by rw [hqe]; exact List.mem_cons_self m rest)
          have hnew_uni : ∀ x ∈ depsToLoad imports s m, x ∈ uni := by
            intro x hx
            exact hclosed m hm_uni x (depsToLoad_sub_imports imports s m x hx)
          have inv2 := coordInv_step imports (fun _ => true) root s m rest hqe inv
          have hall2 : ∀ x ∈ (loadStep imports (fun _ => true) s m rest).allDeps, x ∈ uni := by
            intro x hx
            rcases List.mem_append.mp hx with h | h
            · exact hall x h
            · exact hnew_uni x h
          have hq2 : ∀ x ∈ (loadStep imports (fun _ => true) s m rest).queue, x ∈ uni := by
            intro x hx
            rcases List.mem_append.mp hx with h | h
            · exact hq x (by rw [hqe]; exact List.mem_cons_of_mem _ h)
            · exact hnew_uni x (List.mem_filter.mp h).1
          have hlen2 : (loadStep imports (fun _ => true) s m rest).allDeps.length ≤ uni.length :=
            (List.subperm_of_subset inv2.all_nodup hall2).length_le
          have hlen1 : s.allDeps.length + (depsToLoad imports s m).length =
              (loadStep imports (fun _ => true) s m rest).allDeps.length := by
            simp [loadStep]
          rw [loadLoop, hqe]
          simp only
          by_cases hzero : (loadStep imports (fun _ => true) s m rest).pending = 0
          · rw [if_pos hzero]
            exact ⟨_, rfl, inv2, hzero⟩
          · rw [if_neg hzero]
            apply ih _ inv2 hall2 hq2 hzero
            have hql : (loadStep imports (fun _ => true) s m rest).queue.length =
                rest.length + (depsToLoad imports s m).length := by
              simp [loadStep, List.filter_true]
            rw [hqe] at hb
            simp at hb
            omega

/-- C1: for every finite acyclic import graph (nodes drawn from a
duplicate-free universe closed under imports, with a strictly decreasing
measure along import edges) of valid modules, the coordinator loop of
`load` terminates — within `|universe| + 1` received messages — in the
`done` state with `pending = 0`, and the dependency list it accumulated
contains exactly the transitive closure of the root's imports. -/
theorem load_coordinator_closure {α : Type} [DecidableEq α] (imports : α → List α)
    (root : α) (uni : List α) (μ : α → Nat)
    (huni : uni.Nodup) (hroot : root ∈ uni)
    (hclosed : ∀ a ∈ uni, ∀ b ∈ imports a, b ∈ uni)
    (hacyclic : ∀ a ∈ uni, ∀ b ∈ imports a, μ b < μ a) :
    ∃ s, loadRun imports (fun _ => true) root (uni.length + 1) = .done s ∧
      s.pending = 0 ∧
      ∀ m, m ∈ s.loadedDeps ↔ Reaches imports root m := by
  have inv0 := coordInv_init imports (fun _ => true) root rfl
  obtain ⟨s', hdone, inv', hp⟩ :=
    loadLoop_reaches_done imports root uni huni hclosed (uni.length + 1)
      (initLoadState (fun _ => true) root) inv0
      (by simp [initLoadState])
      (by simpa [initLoadState] using hroot)
      (by simp [initLoadState])
      (by simp [initLoadState]; omega)
  refine ⟨s', hdone, hp, ?_⟩
  intro m
  constructor
  · intro hm
    exact inv'.reach m (inv'.loaded_eq ▸ hm)
  · intro hm
    rw [inv'.loaded_eq]
    exact reaches_mem_allDeps imports (fun _ => true) root s' inv' hp rfl m hm

/-- Acyclicity measure for the diamond graph: strictly decreasing along
every import edge. -/
def diaMeasure : Nat → Nat
  | 0 => 2
  | 1 => 1
  | 2 => 1
  | _ => 0

theorem load_coordinator_closure_witness :
    (([0, 1, 2, 3] : List Nat).Nodup ∧ 0 ∈ ([0, 1, 2, 3] : List Nat) ∧
      (∀ a ∈ ([0, 1, 2, 3] : List Nat), ∀ b ∈ diaImports a, b ∈ ([0, 1, 2, 3] : List Nat)) ∧
      (∀ a ∈ ([0, 1, 2, 3] : List Nat), ∀ b ∈ diaImports a, diaMeasure b < diaMeasure a)) ∧
    ∃ s, loadRun diaImports (fun _ => true) 0 5 = .done s ∧
      s.pending = 0 ∧ ∀ m, m ∈ s.loadedDeps ↔ Reaches diaImports 0 m :=
  ⟨⟨by decide, by decide, by decide, by decide⟩,
    load_coordinator_closure diaImports 0 [0, 1, 2, 3] diaMeasure
      (by decide) (by decide) (by decide) (by decide)⟩

/-- C6: no module is loaded more than once: the coordinator records every
newly seen dependency name in `all_deps` before spawning its worker and
filters already-recorded names out of every later message, so for any
graph of imports, validity oracle and fuel, a completed run's dependency
list is duplicate-free; on the diamond graph (root imports A and B, and
both import C) the run completes with dependency list `[A, B, C]` —
length 3, C loaded exactly once. -/
theorem load_dedup :
    (∀ (α : Type) [DecidableEq α] (imports : α → List α) (valid : α → Bool)
        (root : α) (fuel : Nat) (s : LoadState α),
        loadRun imports valid root fuel = .done s → s.loadedDeps.Nodup) ∧
    loadRun diaImports (fun _ => true) 0 5 =
      .done ⟨[1, 2, 3], 0, [1, 2, 3], []⟩ ∧
    ([1, 2, 3] : List Nat).length = 3 ∧ ([1, 2, 3] : List Nat).count 3 = 1 := by
  refine ⟨?_, by decide, by decide, by decide⟩
  intro α _ imports valid root fuel s hdone
  by_cases hroot : valid root = true
  · have inv0 := coordInv_init imports valid root hroot
    obtain ⟨inv', _⟩ := loadLoop_inv_done imports valid root fuel _ s inv0 hdone
    rw [inv'.loaded_eq]
    exact inv'.all_nodup
  · have hfval : valid root = false := by revert hroot; cases valid root <;> simp
    exact absurd hdone (root_invalid_never_done imports valid root hfval fuel s)

theorem load_dedup_witness : ([1, 2, 3] : List Nat).Nodup :=
  load_dedup.1 Nat diaImports (fun _ => true) 0 5 ⟨[1, 2, 3], 0, [1, 2, 3], []⟩
    (by decide)

/-- C9: a worker whose file read fails or whose header fails to parse
returns its error module without ever sending on the channel
(`load_filename` lines 282 and 287–291 have no `tx.send`), so if any
module reachable from the root is such a failing module, the
coordinator's `pending` counter never reaches 0 and the receive loop of
`load` never exits: no fuel makes the run reach the `done` state. -/
theorem failed_worker_never_done {α : Type} [DecidableEq α] (imports : α → List α)
    (valid : α → Bool) (root f : α)
    (hf : valid f = false) (hr : Reaches imports root f) :
    ∀ (fuel : Nat) (s : LoadState α), loadRun imports valid root fuel ≠ .done s := by
  intro fuel s hdone
  by_cases hroot : valid root = true
  · have inv0 := coordInv_init imports valid root hroot
    obtain ⟨inv', hp⟩ := loadLoop_inv_done imports valid root fuel _ s inv0 hdone
    have hmem := reaches_mem_allDeps imports valid root s inv' hp hroot f hr
    have hv := (done_queue_empty_all_valid imports valid root s inv' hp).2 f hmem
    rw [hf] at hv
    exact Bool.noConfusion hv
  · have hfval : valid root = false := by revert hroot; cases valid root <;> simp
    exact root_invalid_never_done imports valid root hfval fuel s hdone

/-- Root `0` imports only module `1`, whose worker fails. -/
def lineImports : Nat → List Nat
  | 0 => [1]
  | _ => []

/-- Only the root's worker reaches its send. -/
def validOnlyRoot : Nat → Bool := fun n => decide (n = 0)

theorem failed_worker_never_done_witness :
    loadRun lineImports validOnlyRoot 0 9 ≠ .done ⟨[1], 1, [1], []⟩ :=
  failed_worker_never_done lineImports validOnlyRoot 0 1 (by decide)
    (Reaches.direct (by decide)) 9 ⟨[1], 1, [1], []⟩

/-- C2 counterexample: the claim says a worker sends exactly one message
for every input, also on read failure or header-parse failure; but a
worker whose read fails (or whose header fails to parse) sends zero
messages. -/
theorem worker_failure_sends_no_message :
    (load_filename (.error .notFound) (fun _ => .failParse) ['m']).2.length = 0 ∧
    (load_filename (.ok []) (fun _ => .failParse) ['m']).2.length = 0 ∧
    (load_filename (.error .notFound) (fun _ => .failParse) ['m']).2.length ≠ 1 := by
  decide

/-- C2 amended: a loader worker sends exactly one dependency-set message
exactly when its header parses (interface or app) — including the empty
set when it has zero imports — and sends no message when the file read
fails or the header fails to parse. -/
theorem worker_sends_iff_header_parses (read : Except IOErrorKind Src)
    (parse : Src → ParseHeaderResult) (filename : List Char) :
    (load_filename read parse filename).2.length =
      (match read with
       | .error _ => 0
       | .ok src =>
           match parse src with
           | .failParse => 0
           | .ok _ => 1) ∧
    ∀ (src : Src) (fname name : List Char),
      (load_filename (.ok src) (fun _ => .ok (.interface name [] [])) fname).2 = [[]] := by
  constructor
  · cases read with
    | error e => rfl
    | ok src =>
        cases hp : parse src with
        | failParse => simp [load_filename, hp]
        | ok m => cases m <;> simp [load_filename, hp]
  · intro src fname name
    rfl

theorem processDeps_ok_valid_names {γ : Type} :
    ∀ (deps : List (LoadedDep γ)) (m : List (QualSymbol × Nat))
      (cs : List ((List Char) × γ)) (r : (List (QualSymbol × Nat)) × List ((List Char) × γ)),
      processDeps deps m cs = .ok r →
      ∀ vm : CanModule γ, LoadedDep.valid vm ∈ deps → ∃ nm, vm.name = some nm := by
  intro deps
  induction deps with
  | nil => intro m cs r h vm hvm; simp at hvm
  | cons d rest ih =>
      intro m cs r h vm hvm
      cases d with
      | valid vd =>
          rw [processDeps] at h
          cases had : addDeclVars vd.declarations (vd.exposedImports.foldl varsInsert m) with
          | error e => rw [had] at h; exact absurd h (by simp)
          | ok m2 =>
              rw [had] at h
              cases hn : vd.name with
              | none => rw [hn] at h; exact absurd h (by simp)
              | some nm =>
                  rw [hn] at h
                  rcases List.mem_cons.mp hvm with he | hm
                  · cases he
                    exact ⟨nm, hn⟩
                  · exact ih _ _ _ h vm hm
      | fileProblem fn e => rw [processDeps] at h; exact absurd h (by simp)
      | parsingFailed fn => rw [processDeps] at h; exact absurd h (by simp)

theorem solve_loaded_ok_split {γ : Type} (module : CanModule γ)
    (deps : List (LoadedDep γ)) (out : List γ) :
    solve_loaded module deps = .ok out →
    ∃ v1 r, addDeclVars module.declarations (module.exposedImports.foldl varsInsert []) = .ok v1 ∧
      processDeps deps v1 [] = .ok r := by
  intro h
  rw [solve_loaded] at h
  cases had : addDeclVars module.declarations (module.exposedImports.foldl varsInsert []) with
  | error e => rw [had] at h; exact absurd h (by simp)
  | ok v1 =>
      simp only [had] at h
      cases hpd : processDeps deps v1 [] with
      | error e => rw [hpd] at h; exact absurd h (by simp)
      | ok r => exact ⟨v1, r, rfl, hpd⟩

/-- C10: `solve_loaded` unwraps each Valid dependency's name
(`valid_dep.name.unwrap()`, line 432), so a dependency list containing a
Valid module with no name (an anonymous app module loaded as a
dependency) always makes `solve_loaded` panic, and a run that completes
without panicking implies every Valid dependency carried a name. -/
theorem solve_loaded_name_unwrap :
    (∀ (γ : Type) (module : CanModule γ) (deps : List (LoadedDep γ)) (vm : CanModule γ),
        LoadedDep.valid vm ∈ deps → vm.name = none →
        ∃ e, solve_loaded module deps = .error e) ∧
    (∀ (γ : Type) (module : CanModule γ) (deps : List (LoadedDep γ)) (out : List γ),
        solve_loaded module deps = .ok out →
        ∀ vm : CanModule γ, LoadedDep.valid vm ∈ deps → ∃ nm, vm.name = some nm) := by
  have part2 : ∀ (γ : Type) (module : CanModule γ) (deps : List (LoadedDep γ)) (out : List γ),
      solve_loaded module deps = .ok out →
      ∀ vm : CanModule γ, LoadedDep.valid vm ∈ deps → ∃ nm, vm.name = some nm := by
    intro γ module deps out h vm hvm
    obtain ⟨v1, r, _, hpd⟩ := solve_loaded_ok_split module deps out h
    exact processDeps_ok_valid_names deps v1 [] r hpd vm hvm
  refine ⟨?_, part2⟩
  intro γ module deps vm hvm hnone
  cases hres : solve_loaded module deps with
  | error e => exact ⟨e, rfl⟩
  | ok out =>
      obtain ⟨nm, hnm⟩ := part2 γ module deps out hres vm hvm
      rw [hnone] at hnm
      exact absurd hnm (by simp)

theorem solve_loaded_name_unwrap_witness :
    ∃ e, solve_loaded (⟨some ['M'], [], [], 5⟩ : CanModule Nat)
      [.valid ⟨none, [], [], 7⟩] = .error e :=
  solve_loaded_name_unwrap.1 Nat ⟨some ['M'], [], [], 5⟩ [.valid ⟨none, [], [], 7⟩]
    ⟨none, [], [], 7⟩ (List.mem_singleton.mpr rfl) rfl

/-- Whether a loaded dependency is one of the two broken variants
(`FileProblem` / `ParsingFailed`). -/
def isBrokenDep {γ : Type} : LoadedDep γ → Bool
  | .valid _ => false
  | .fileProblem _ _ => true
  | .parsingFailed _ => true

/-- Whether a declaration list is free of `InvalidCycle` entries (the
variant on which `solve_loaded`'s declaration walks panic). -/
def noInvalidCycle : List Declaration → Bool
  | [] => true
  | .invalidCycle :: _ => false
  | _ :: rest => noInvalidCycle rest

/-- The constraints of the Valid dependencies, in dependency-list
order. -/
def validConstraints {γ : Type} : List (LoadedDep γ) → List γ
  | [] => []
  | .valid vm :: rest => vm.constraint :: validConstraints rest
  | _ :: rest => validConstraints rest

theorem addDeclVars_ok_of_noCycle :
    ∀ (ds : List Declaration) (m : List (QualSymbol × Nat)),
      noInvalidCycle ds = true → ∃ m2, addDeclVars ds m = .ok m2 := by
  intro ds
  induction ds with
  | nil => exact fun m _ => ⟨m, rfl⟩
  | cons d rest ih =>
      intro m h
      cases d with
      | declare dd => exact ih _ (by simpa [noInvalidCycle] using h)
      | declareRec dds => exact ih _ (by simpa [noInvalidCycle] using h)
      | invalidCycle => simp [noInvalidCycle] at h

theorem processDeps_ok_of_good {γ : Type} :
    ∀ (deps : List (LoadedDep γ)),
      (∀ d ∈ deps, ∃ vm nm, d = LoadedDep.valid vm ∧ vm.name = some nm ∧
          noInvalidCycle vm.declarations = true) →
      ∀ (m : List (QualSymbol × Nat)) (cs : List ((List Char) × γ)),
        ∃ m2 cs2, processDeps deps m cs = .ok (m2, cs2) ∧
          cs2.map (·.2) = cs.map (·.2) ++ validConstraints deps := by
  intro deps
  induction deps with
  | nil => exact fun _ m cs => ⟨m, cs, rfl, by simp [validConstraints]⟩
  | cons d rest ih =>
      intro hgood m cs
      obtain ⟨vm, nm, rfl, hnm, hnc⟩ := hgood d (List.mem_cons_self d rest)
      obtain ⟨m2, had⟩ :=
        addDeclVars_ok_of_noCycle vm.declarations (vm.exposedImports.foldl varsInsert m) hnc
      obtain ⟨m3, cs3, hpd, hmap⟩ :=
        ih (fun d hd => hgood d (List.mem_cons_of_mem _ hd)) m2 (cs ++ [(nm, vm.constraint)])
      refine ⟨m3, cs3, ?_, ?_⟩
      · rw [processDeps, had, hnm]
        exact hpd
      · rw [hmap]
        simp [validConstraints]

theorem processDeps_ok_no_broken {γ : Type} :
    ∀ (deps : List (LoadedDep γ)) (m : List (QualSymbol × Nat))
      (cs : List ((List Char) × γ)) (r : (List (QualSymbol × Nat)) × List ((List Char) × γ)),
      processDeps deps m cs = .ok r → ∀ d ∈ deps, isBrokenDep d = false := by
  intro deps
  induction deps with
  | nil => intro m cs r h d hd; simp at hd
  | cons d0 rest ih =>
      intro m cs r h d hd
      cases d0 with
      | valid vd =>
          rw [processDeps] at h
          cases had : addDeclVars vd.declarations (vd.exposedImports.foldl varsInsert m) with
          | error e => rw [had] at h; exact absurd h (by simp)
          | ok m2 =>
              rw [had] at h
              cases hn : vd.name with
              | none => rw [hn] at h; exact absurd h (by simp)
              | some nm =>
                  rw [hn] at h
                  rcases List.mem_cons.mp hd with he | hm
                  · subst he; rfl
                  · exact ih _ _ _ h d hm
      | fileProblem fn e => rw [processDeps] at h; exact absurd h (by simp)
      | parsingFailed fn => rw [processDeps] at h; exact absurd h (by simp)

/-- C8 counterexample: the claim, as stated, only requires every
dependency to be Valid; but with the single Valid (anonymous) dependency
`⟨none, [], [], 7⟩` the driver panics on the name unwrap before invoking
the solver at all, instead of invoking it once on the dependency's
constraint and once on the primary constraint. -/
theorem solve_loaded_anonymous_dep_cex :
    solve_loaded (⟨some ['M'], [], [], 5⟩ : CanModule Nat)
        [.valid ⟨none, [], [], 7⟩] = .error .nameUnwrap ∧
    solve_loaded (⟨some ['M'], [], [], 5⟩ : CanModule Nat)
        [.valid ⟨none, [], [], 7⟩] ≠ .ok [7, 5] := by
  refine ⟨rfl, ?_⟩
  intro h
  exact Except.noConfusion h

/-- C8 amended: given a primary module whose declarations contain no
invalid cycle and a dependency list in which every dependency is Valid,
carries a declared name, and has no invalid-cycle declarations,
`solve_loaded` invokes the external solver exactly once per dependency,
in dependency-list order, and then exactly once more on the primary
module's constraint; a `FileProblem` or `ParsingFailed` dependency is
fatal at this layer (the run panics). -/
theorem solve_loaded_order :
    (∀ (γ : Type) (module : CanModule γ) (deps : List (LoadedDep γ)),
        noInvalidCycle module.declarations = true →
        (∀ d ∈ deps, ∃ vm nm, d = LoadedDep.valid vm ∧ vm.name = some nm ∧
            noInvalidCycle vm.declarations = true) →
        solve_loaded module deps = .ok (validConstraints deps ++ [module.constraint])) ∧
    (∀ (γ : Type) (module : CanModule γ) (deps : List (LoadedDep γ)) (d : LoadedDep γ),
        d ∈ deps → isBrokenDep d = true →
        ∃ e, solve_loaded module deps = .error e) := by
  constructor
  · intro γ module deps hmod hdeps
    obtain ⟨v1, had⟩ :=
      addDeclVars_ok_of_noCycle module.declarations (module.exposedImports.foldl varsInsert []) hmod
    obtain ⟨m2, cs2, hpd, hmap⟩ := processDeps_ok_of_good deps hdeps v1 []
    rw [solve_loaded]
    simp only [had, hpd]
    simp at hmap
    rw [hmap]
  · intro γ module deps d hd hbroken
    cases hres : solve_loaded module deps with
    | error e => exact ⟨e, rfl⟩
    | ok out =>
        obtain ⟨v1, r, _, hpd⟩ := solve_loaded_ok_split module deps out hres
        have hfalse := processDeps_ok_no_broken deps v1 [] r hpd d hd
        rw [hbroken] at hfalse
        exact absurd hfalse (by simp)

theorem solve_loaded_order_witness :
    solve_loaded (⟨some ['M'], [], [], 5⟩ : CanModule Nat)
        [.valid ⟨some ['A'], [], [], 7⟩] =
      .ok (validConstraints [LoadedDep.valid (⟨some ['A'], [], [], 7⟩ : CanModule Nat)] ++ [5]) :=
  solve_loaded_order.1 Nat ⟨some ['M'], [], [], 5⟩ [.valid ⟨some ['A'], [], [], 7⟩]
    rfl
    (fun d hd =>
      ⟨⟨some ['A'], [], [], 7⟩, ['A'], List.mem_singleton.mp hd, rfl, rfl⟩)
